import Mathlib

/-!
Verification of the dependency-graph analyzer (`src/config.py`, `src/main.py`).

The embedding below translates the Python classes `DependencyAnalyzer` and
`DependencyGraph` into pure Lean functions with explicit state passing.
Python dicts keyed by strings become association lists (key order =
insertion order, matching CPython dict semantics), Python sets become
duplicate-free lists, and exceptions become `Except` values.

The relevant Python functions:
  * `DependencyAnalyzer.extract_dependencies_for_package` (main.py 15-26)
  * `DependencyAnalyzer._get_crate_dependencies`          (main.py 28-44)
  * `DependencyAnalyzer._extract_from_test_file`          (main.py 46-61)
  * `DependencyGraph.__init__`                            (main.py 64-70)
  * `DependencyGraph.build_complete_graph`                (main.py 72-76)
  * `DependencyGraph._dfs`                                (main.py 78-103)
  * `DependencyGraph.get_load_order`                      (main.py 149-172)
-/

deriving instance DecidableEq for Except

/-- Association-list lookup, modelling a Python `dict` read
(`d[k]` on a plain dict, or `d.get(k)`). -/
def lookupA : List (String × List String) → String → Option (List String)
  | [], _ => none
  | (k, v) :: rest, p => if k = p then some v else lookupA rest p

/-- A dependency graph: Python `defaultdict(list)` mapping a package to the
ordered list of its direct dependencies, keys in insertion order. -/
abbrev Graph := List (String × List String)

/-- Outcome of the crates.io queries made by `_get_crate_dependencies` for one
crate: either the dependency names were obtained, or the lookup failed
(non-200 status on either request, malformed payload, timeout or transport
error — every such path in main.py 28-44 is absorbed into `fail`). -/
inductive FetchOutcome
  | ok (deps : List String)
  | fail

/-- The environment of one run: the loaded configuration fields that the
analyzer consults plus the deterministic external world it reads from.
`testFile` is the parsed content of the file named by
`parameters[&quot;repository_url&quot;]` (`none` = the file does not exist, in which
case `_extract_from_test_file` raises); `registry` gives the crates.io
answer for each crate name. -/
structure Env where
  test_repository_mode : Bool
  testFile : Option (List (String × List String))
  registry : String → FetchOutcome
  max_depth : Nat

/-- Model of `DependencyAnalyzer._get_crate_dependencies` (main.py 28-44): returns the
dependency names on success; every failure path is caught inside the method
and yields `[]` (the method never raises). -/
def get_crate_dependencies (env : Env) (crate_name : String) : List String :=
  match env.registry crate_name with
  | FetchOutcome.ok deps => deps
  | FetchOutcome.fail => []

/-- Mutable state of a `DependencyAnalyzer` instance: the memoization dict
`self.cache` (main.py 13), plus a ghost counter of how many times the
underlying Manifest Source was consulted (i.e. how often
`_extract_from_test_file` or `_get_crate_dependencies` was entered). -/
structure AnalyzerState where
  cache : List (String × List String)
  fetchCount : Nat
deriving DecidableEq

/-- A freshly constructed `DependencyAnalyzer` (main.py 11-13). -/
def initAnalyzer : AnalyzerState := { cache := [], fetchCount := 0 }

/-- Model of `DependencyAnalyzer.extract_dependencies_for_package` (main.py 15-26).
On a cache hit the stored list is returned unchanged.  On a miss, in test
mode the test file is read and parsed (`Except.error` models the exception
raised by `_extract_from_test_file` when the file is absent, main.py 48-49;
note the exception propagates before `self.cache[package] = result` runs, so
nothing is cached); otherwise `_get_crate_dependencies` is called, which
never raises.  A successful result is stored in the cache. -/
def extract_dependencies_for_package (env : Env) (st : AnalyzerState)
    (package : String) : Except String (List String) × AnalyzerState :=
  match lookupA st.cache package with
  | some r => (Except.ok r, st)
  | none =>
    if env.test_repository_mode then
      match env.testFile with
      | none =>
        (Except.error "test file not found",
         { st with fetchCount := st.fetchCount + 1 })
      | some table =>
        let result := (lookupA table package).getD []
        (Except.ok result,
         { cache := st.cache ++ [(package, result)],
           fetchCount := st.fetchCount + 1 })
    else
      let result := get_crate_dependencies env package
      (Except.ok result,
       { cache := st.cache ++ [(package, result)],
         fetchCount := st.fetchCount + 1 })

/-- Append `dep` to `graph[package]`, modelling
`self.graph[package].append(dep)` on a `defaultdict(list)` (main.py 98):
if the key exists its list is extended in place, otherwise the key is
created at the end of the dict with the one-element list. -/
def graphAppend : Graph → String → String → Graph
  | [], p, d => [(p, [d])]
  | (k, v) :: rest, p, d =>
    if k = p then (k, v ++ [d]) :: rest else (k, v) :: graphAppend rest p d

/-- The suffix of `path` starting at the first occurrence of `p`, modelling
`path[path.index(p):]` (main.py 84).  (Python's `list.index` raises when `p`
is absent; the call site is guarded by `p ∈ recursion_stack`, and on every
reachable state the recursion stack is contained in the path, so the absent
case never arises there.) -/
def sliceFrom : List String → String → List String
  | [], _ => []
  | x :: xs, p => if x = p then x :: xs else sliceFrom xs p

/-- The cycle recorded by `_dfs` on a back edge:
`path[path.index(package):] + [package]` (main.py 84). -/
def pathCycle (path : List String) (package : String) : List String :=
  sliceFrom path package ++ [package]

/-- Mutable state of a `DependencyGraph` instance together with its analyzer:
`self.graph`, `self.visited`, `self.recursion_stack`, `self.cycles`
(main.py 67-70).  The two Python sets are modelled as duplicate-free lists
(membership is all that is ever used, plus `set.remove`). -/
structure BuildState where
  analyzer : AnalyzerState
  graph : Graph
  visited : List String
  recursion_stack : List String
  cycles : List (List String)
deriving DecidableEq

/-- A freshly constructed `DependencyGraph` with a freshly constructed
`DependencyAnalyzer` (main.py 64-70 and 11-13). -/
def initBuild : BuildState :=
  { analyzer := initAnalyzer, graph := [], visited := [],
    recursion_stack := [], cycles := [] }

/-- Model of `DependencyGraph._dfs` (main.py 78-103).  The fuel argument is
`max_depth - current_depth`, so `fuel = 0` is exactly the guard
`current_depth >= max_depth` (main.py 79) and each recursive call passes
`current_depth + 1` (main.py 99), i.e. one unit less fuel.  The
`try/except` around the fetch and the dependency loop (main.py 95-101)
swallows the fetch error per node; the loop body itself cannot raise.
`recursion_stack.remove(package)` (main.py 103) runs in both cases. -/
def dfs (env : Env) : Nat → String → List String → BuildState → BuildState
  | 0, _, _, st => st
  | fuel + 1, package, path, st =>
    if package ∈ st.recursion_stack then
      { st with cycles := st.cycles ++ [pathCycle path package] }
    else if package ∈ st.visited then
      st
    else
      let st1 : BuildState :=
        { st with visited := st.visited ++ [package],
                  recursion_stack := st.recursion_stack ++ [package] }
      let st2 : BuildState :=
        match extract_dependencies_for_package env st1.analyzer package with
        | (Except.error _, a) => { st1 with analyzer := a }
        | (Except.ok deps, a) =>
          deps.foldl
            (fun acc dep =>
              dfs env fuel dep (path ++ [package])
                { acc with graph := graphAppend acc.graph package dep })
            { st1 with analyzer := a }
      { st2 with recursion_stack := st2.recursion_stack.erase package }

/-- Model of `DependencyGraph.build_complete_graph` (main.py 72-76): runs `_dfs` from
the start package at depth 0 with the configured `max_depth` and returns
`self.graph` (together with the mutated instance state). -/
def build_complete_graph (env : Env) (st : BuildState) (start_package : String) :
    Graph × BuildState :=
  let st1 := dfs env env.max_depth start_package [] st
  (st1.graph, st1)

/-- Read `self.graph.get(package, [])` (main.py 165): a plain `dict.get`
read that never inserts a key (unlike `defaultdict` indexing).  The graph is
returned unchanged alongside the value. -/
def graph_get (g : Graph) (package : String) : List String × Graph :=
  ((lookupA g package).getD [], g)

/-- Pure projection of `graph_get`: the dependency list the Order Deriver
sees for a package. -/
def dget (g : Graph) (package : String) : List String :=
  (lookupA g package).getD []

/-- The local state of one `get_load_order` call (main.py 151-153): the
local `visited` and `temp_visited` sets and the accumulation list `stack`,
together with the instance's `self.graph`, threaded through so that the
absence of mutation is a provable property rather than an assumption. -/
structure TopoState where
  visited : List String
  temp_visited : List String
  stack : List String
  graph : Graph
deriving DecidableEq

/-- The inner closure `topological_sort` of `get_load_order`
(main.py 155-169).  Python needs no fuel (the visited set grows on every
expansion, so recursion depth is bounded by the number of distinct nodes);
the fuel here is a termination token chosen large enough by the caller that
it never reaches 0 on an actual run. -/
def topological_sort : Nat → String → TopoState → TopoState
  | 0, _, ts => ts
  | fuel + 1, package, ts =>
    if package ∈ ts.temp_visited then ts
    else if package ∈ ts.visited then ts
    else
      let ts1 : TopoState :=
        { ts with visited := ts.visited ++ [package],
                  temp_visited := ts.temp_visited ++ [package] }
      let fetched := graph_get ts1.graph package
      let ts2 : TopoState :=
        fetched.1.foldl (fun acc dep => topological_sort fuel dep acc)
          { ts1 with graph := fetched.2 }
      { ts2 with temp_visited := ts2.temp_visited.erase package,
                 stack := ts2.stack ++ [package] }

/-- All package names occurring in a graph, as keys or as values. -/
def nodesOf (g : Graph) : List String :=
  g.foldr (fun kv acc => kv.1 :: (kv.2 ++ acc)) []

/-- Model of `DependencyGraph.get_load_order` (main.py 149-172): runs the inner
`topological_sort` from the start package on fresh local sets and returns
`stack[::-1]`, together with the (unchanged) instance state.  The fuel
exceeds the number of distinct nodes of the graph plus one, which is an
upper bound on the recursion depth Python ever reaches, so the fuel guard
never fires on the modelled runs. -/
def get_load_order (st : BuildState) (start_package : String) :
    List String × BuildState :=
  let fuel := (start_package :: nodesOf st.graph).dedup.length + 1
  let ts := topological_sort fuel start_package
    { visited := [], temp_visited := [], stack := [], graph := st.graph }
  (ts.stack.reverse, { st with graph := ts.graph })

/-- Frame relation between the topo state before and after a
`topological_sort` call: the graph and the temp-visited set come back
unchanged, and the stack and the visited list only grow at the end. -/
def TFrame (ts r : TopoState) : Prop :=
  r.graph = ts.graph ∧ r.temp_visited = ts.temp_visited ∧
  (∃ l, r.stack = ts.stack ++ l) ∧ (∃ l, r.visited = ts.visited ++ l)

theorem tframe_refl (ts : TopoState) : TFrame ts ts :=
  ⟨rfl, rfl, ⟨[], by simp⟩, ⟨[], by simp⟩⟩

theorem tframe_trans {a b c : TopoState} (h1 : TFrame a b) (h2 : TFrame b c) :
    TFrame a c := by
  obtain ⟨g1, t1, ⟨l1, s1⟩, ⟨m1, v1⟩⟩ := h1
  obtain ⟨g2, t2, ⟨l2, s2⟩, ⟨m2, v2⟩⟩ := h2
  exact ⟨g2.trans g1, t2.trans t1,
    ⟨l1 ++ l2, by rw [s2, s1, List.append_assoc]⟩,
    ⟨m1 ++ m2, by rw [v2, v1, List.append_assoc]⟩⟩

/-- A fold of state transformers each of which satisfies a preserved
property and the frame relation preserves both. -/
theorem foldl_tframe (f : String → TopoState → TopoState)
    (hf : ∀ d ts, TFrame ts (f d ts)) :
    ∀ (deps : List String) (ts : TopoState),
      TFrame ts (deps.foldl (fun acc d => f d acc) ts) := by
  intro deps
  induction deps with
  | nil => intro ts; exact tframe_refl ts
  | cons d rest ih =>
    intro ts
    exact tframe_trans (hf d ts) (ih (f d ts))

theorem foldl_pres (P : TopoState → Prop) (f : String → TopoState → TopoState)
    (hf : ∀ d ts, P ts → P (f d ts)) :
    ∀ (deps : List String) (ts : TopoState),
      P ts → P (deps.foldl (fun acc d => f d acc) ts) := by
  intro deps
  induction deps with
  | nil => intro ts h; exact h
  | cons d rest ih => intro ts h; exact ih (f d ts) (hf d ts h)

/-- Unfolding lemma for the early-return branches of `topological_sort`. -/
theorem topological_sort_stop (fuel : Nat) (package : String) (ts : TopoState)
    (h : package ∈ ts.temp_visited ∨ package ∈ ts.visited) :
    topological_sort (fuel + 1) package ts = ts := by
  rcases h with h | h
  · simp [topological_sort, h]
  · by_cases h' : package ∈ ts.temp_visited <;> simp [topological_sort, h, h']

/-- Unfolding lemma for the expansion branch of `topological_sort`. -/
theorem topological_sort_expand (fuel : Nat) (package : String) (ts : TopoState)
    (h1 : package ∉ ts.temp_visited) (h2 : package ∉ ts.visited) :
    topological_sort (fuel + 1) package ts =
      (fun ts2 : TopoState =>
        { ts2 with temp_visited := ts2.temp_visited.erase package,
                   stack := ts2.stack ++ [package] })
      ((dget ts.graph package).foldl
        (fun acc dep => topological_sort fuel dep acc)
        { ts with visited := ts.visited ++ [package],
                  temp_visited := ts.temp_visited ++ [package] }) := by
  simp only [topological_sort, if_neg h1, if_neg h2, graph_get, dget]

theorem topological_sort_tframe :
    ∀ (fuel : Nat) (package : String) (ts : TopoState),
      TFrame ts (topological_sort fuel package ts) := by
  intro fuel
  induction fuel with
  | zero => intro package ts; exact tframe_refl ts
  | succ fuel ih =>
    intro package ts
    by_cases h1 : package ∈ ts.temp_visited
    · rw [topological_sort_stop fuel package ts (Or.inl h1)]; exact tframe_refl ts
    by_cases h2 : package ∈ ts.visited
    · rw [topological_sort_stop fuel package ts (Or.inr h2)]; exact tframe_refl ts
    rw [topological_sort_expand fuel package ts h1 h2]
    set ts1 : TopoState :=
      { ts with visited := ts.visited ++ [package],
                temp_visited := ts.temp_visited ++ [package] } with hts1
    have hfold : TFrame ts1 ((dget ts.graph package).foldl
        (fun acc dep => topological_sort fuel dep acc) ts1) :=
      foldl_tframe _ (fun d t => ih d t) _ ts1
    set ts2 := (dget ts.graph package).foldl
        (fun acc dep => topological_sort fuel dep acc) ts1 with hts2
    obtain ⟨hg, ht, ⟨l, hs⟩, ⟨m, hv⟩⟩ := hfold
    refine ⟨hg, ?_, ⟨l ++ [package], ?_⟩, ⟨package :: m, ?_⟩⟩
    · show ts2.temp_visited.erase package = ts.temp_visited
      rw [ht]
      show (ts.temp_visited ++ [package]).erase package = ts.temp_visited
      rw [List.erase_append_right _ h1, List.erase_cons_head, List.append_nil]
    · show ts2.stack ++ [package] = ts.stack ++ (l ++ [package])
      rw [hs]; simp
    · show ts2.visited = ts.visited ++ (package :: m)
      rw [hv]; simp

/-- Invariants of the topo state: the accumulation stack and the
temp-visited set are duplicate-free and disjoint, and the visited set is
exactly their union. -/
def TInv (ts : TopoState) : Prop :=
  ts.stack.Nodup ∧ ts.temp_visited.Nodup ∧
  (∀ x, x ∈ ts.visited ↔ x ∈ ts.stack ∨ x ∈ ts.temp_visited) ∧
  (∀ x, x ∈ ts.stack → x ∉ ts.temp_visited)

theorem topological_sort_tinv :
    ∀ (fuel : Nat) (package : String) (ts : TopoState),
      TInv ts → TInv (topological_sort fuel package ts) := by
  intro fuel
  induction fuel with
  | zero => intro package ts h; exact h
  | succ fuel ih =>
    intro package ts hinv
    by_cases h1 : package ∈ ts.temp_visited
    · rw [topological_sort_stop fuel package ts (Or.inl h1)]; exact hinv
    by_cases h2 : package ∈ ts.visited
    · rw [topological_sort_stop fuel package ts (Or.inr h2)]; exact hinv
    rw [topological_sort_expand fuel package ts h1 h2]
    obtain ⟨hsn, htn, hviff, hdisj⟩ := hinv
    set ts1 : TopoState :=
      { ts with visited := ts.visited ++ [package],
                temp_visited := ts.temp_visited ++ [package] } with hts1
    have hinv1 : TInv ts1 := by
      refine ⟨hsn, ?_, ?_, ?_⟩
      · show (ts.temp_visited ++ [package]).Nodup
        exact htn.append (List.nodup_singleton _) (List.disjoint_singleton.2 h1)
      · intro x
        show x ∈ ts.visited ++ [package] ↔ x ∈ ts.stack ∨ x ∈ ts.temp_visited ++ [package]
        simp only [List.mem_append, List.mem_singleton, hviff x]
        tauto
      · intro x hx
        show x ∉ ts.temp_visited ++ [package]
        simp only [List.mem_append, List.mem_singleton]
        rintro (h | rfl)
        · exact hdisj x hx h
        · exact h2 ((hviff x).mpr (Or.inl hx))
    have hinv2 : TInv ((dget ts.graph package).foldl
        (fun acc dep => topological_sort fuel dep acc) ts1) :=
      foldl_pres TInv _ (fun d t ht => ih d t ht) _ ts1 hinv1
    have hframe2 : TFrame ts1 ((dget ts.graph package).foldl
        (fun acc dep => topological_sort fuel dep acc) ts1) :=
      foldl_tframe _ (fun d t => topological_sort_tframe fuel d t) _ ts1
    set ts2 := (dget ts.graph package).foldl
        (fun acc dep => topological_sort fuel dep acc) ts1 with hts2
    obtain ⟨hsn2, htn2, hviff2, hdisj2⟩ := hinv2
    obtain ⟨hg2, ht2, ⟨l, hs2⟩, ⟨m, hv2⟩⟩ := hframe2
    have htemp2 : ts2.temp_visited = ts.temp_visited ++ [package] := ht2
    have hpacktemp2 : package ∈ ts2.temp_visited := by
      rw [htemp2]; simp
    have hpackstack2 : package ∉ ts2.stack := fun h => hdisj2 package h hpacktemp2
    have herase : ts2.temp_visited.erase package = ts.temp_visited := by
      rw [htemp2, List.erase_append_right _ h1, List.erase_cons_head,
        List.append_nil]
    refine ⟨?_, ?_, ?_, ?_⟩
    · show (ts2.stack ++ [package]).Nodup
      exact hsn2.append (List.nodup_singleton _)
        (List.disjoint_singleton.2 hpackstack2)
    · show (ts2.temp_visited.erase package).Nodup
      rw [herase]; exact htn
    · intro x
      show x ∈ ts2.visited ↔ x ∈ ts2.stack ++ [package] ∨ x ∈ ts2.temp_visited.erase package
      rw [herase, hviff2 x, htemp2]
      simp only [List.mem_append, List.mem_singleton]
      tauto
    · intro x hx
      show x ∉ ts2.temp_visited.erase package
      rw [herase]
      simp only [List.mem_append, List.mem_singleton] at hx
      rcases hx with hx | rfl
      · intro hmem
        exact hdisj2 x hx (by rw [htemp2]; simp [hmem])
      · exact h1

/-- Completeness invariant: every fully processed node (visited and no
longer temp-marked) already has all its direct dependencies visited. -/
def GoodDeps (ts : TopoState) : Prop :=
  ∀ a, a ∈ ts.visited → a ∉ ts.temp_visited →
    ∀ b, b ∈ dget ts.graph a → b ∈ ts.visited

theorem card_sdiff_mono_of_visited {U : Finset String}
    {v : List String} (m : List String) :
    (U \ (v ++ m).toFinset).card ≤ (U \ v.toFinset).card := by
  refine Finset.card_le_card (Finset.sdiff_subset_sdiff (Finset.Subset.refl U) ?_)
  intro x hx
  simp only [List.mem_toFinset] at hx ⊢
  exact List.mem_append_left m hx

/-- With fuel exceeding the number of not-yet-visited nodes of interest,
a `topological_sort` call marks its package visited and preserves the
completeness invariant. -/
theorem topological_sort_complete (U : Finset String) :
    ∀ (fuel : Nat) (package : String) (ts : TopoState),
      TInv ts →
      package ∈ U →
      (∀ a b, b ∈ dget ts.graph a → b ∈ U) →
      (U \ ts.visited.toFinset).card < fuel →
      GoodDeps ts →
      package ∈ (topological_sort fuel package ts).visited ∧
        GoodDeps (topological_sort fuel package ts) := by
  intro fuel
  induction fuel with
  | zero =>
    intro package ts _ _ _ hcard _
    exact absurd hcard (Nat.not_lt_zero _)
  | succ fuel ih =>
    intro package ts hinv hU hval hcard hgood
    by_cases h1 : package ∈ ts.temp_visited
    · rw [topological_sort_stop fuel package ts (Or.inl h1)]
      exact ⟨(hinv.2.2.1 package).mpr (Or.inr h1), hgood⟩
    by_cases h2 : package ∈ ts.visited
    · rw [topological_sort_stop fuel package ts (Or.inr h2)]
      exact ⟨h2, hgood⟩
    rw [topological_sort_expand fuel package ts h1 h2]
    obtain ⟨hsn, htn, hviff, hdisj⟩ := hinv
    set ts1 : TopoState :=
      { ts with visited := ts.visited ++ [package],
                temp_visited := ts.temp_visited ++ [package] } with hts1
    have hinv1 : TInv ts1 := by
      refine ⟨hsn, htn.append (List.nodup_singleton _)
        (List.disjoint_singleton.2 h1), ?_, ?_⟩
      · intro x
        show x ∈ ts.visited ++ [package] ↔
          x ∈ ts.stack ∨ x ∈ ts.temp_visited ++ [package]
        simp only [List.mem_append, List.mem_singleton, hviff x]
        tauto
      · intro x hx
        show x ∉ ts.temp_visited ++ [package]
        simp only [List.mem_append, List.mem_singleton]
        rintro (h | rfl)
        · exact hdisj x hx h
        · exact h2 ((hviff x).mpr (Or.inl hx))
    have hgood1 : GoodDeps ts1 := by
      intro a ha hat b hb
      show b ∈ ts.visited ++ [package]
      have hanp : a ≠ package := by
        rintro rfl
        exact hat (by show a ∈ ts.temp_visited ++ [a]; simp)
      have ha' : a ∈ ts.visited := by
        rcases List.mem_append.mp ha with h | h
        · exact h
        · exact absurd (List.mem_singleton.mp h) hanp
      have hat' : a ∉ ts.temp_visited := fun h =>
        hat (List.mem_append_left _ h)
      exact List.mem_append_left _ (hgood a ha' hat' b hb)
    have hcard1 : (U \ ts1.visited.toFinset).card < fuel := by
      have hdiff : U \ ts1.visited.toFinset =
          (U \ ts.visited.toFinset).erase package := by
        ext x
        show x ∈ U \ (ts.visited ++ [package]).toFinset ↔ _
        simp only [Finset.mem_sdiff, Finset.mem_erase, List.mem_toFinset,
          List.mem_append, List.mem_singleton]
        tauto
      have hpmem : package ∈ U \ ts.visited.toFinset := by
        simp only [Finset.mem_sdiff, List.mem_toFinset]
        exact ⟨hU, h2⟩
      have hge : 1 ≤ (U \ ts.visited.toFinset).card :=
        Finset.card_pos.mpr ⟨package, hpmem⟩
      rw [hdiff, Finset.card_erase_of_mem hpmem]
      omega
    -- process the dependency list, carrying the invariants along the fold
    have hfold : ∀ (deps : List String) (t : TopoState),
        TInv t → GoodDeps t → t.graph = ts.graph →
        (∀ d, d ∈ deps → d ∈ U) →
        (U \ t.visited.toFinset).card < fuel →
        TInv (deps.foldl (fun acc dep => topological_sort fuel dep acc) t) ∧
        GoodDeps (deps.foldl (fun acc dep => topological_sort fuel dep acc) t) ∧
        (deps.foldl (fun acc dep => topological_sort fuel dep acc) t).graph
            = ts.graph ∧
        (∀ d, d ∈ deps →
          d ∈ (deps.foldl (fun acc dep => topological_sort fuel dep acc) t).visited) ∧
        (∃ m, (deps.foldl (fun acc dep => topological_sort fuel dep acc) t).visited
            = t.visited ++ m) ∧
        (deps.foldl (fun acc dep => topological_sort fuel dep acc) t).temp_visited
            = t.temp_visited := by
      intro deps
      induction deps with
      | nil =>
        intro t hi hg hgr _ _
        exact ⟨hi, hg, hgr,
          (fun d hd => absurd hd (List.not_mem_nil d)), ⟨[], by simp⟩, rfl⟩
      | cons d rest ihd =>
        intro t hi hg hgr hdU hc
        have hdU' : d ∈ U := hdU d (List.mem_cons_self d rest)
        have hval' : ∀ a b, b ∈ dget t.graph a → b ∈ U := by
          rw [hgr]; exact hval
        have hstep := ih d t hi hdU' hval' hc hg
        have hframe := topological_sort_tframe fuel d t
        obtain ⟨hgr1, htv1, _, ⟨m1, hv1⟩⟩ := hframe
        set t1 := topological_sort fuel d t with ht1
        have hi1 : TInv t1 := topological_sort_tinv fuel d t hi
        have hc1 : (U \ t1.visited.toFinset).card < fuel := by
          rw [hv1]
          exact lt_of_le_of_lt (card_sdiff_mono_of_visited m1) hc
        have hrest := ihd t1 hi1 hstep.2 (hgr1.trans hgr)
          (fun x hx => hdU x (List.mem_cons_of_mem d hx)) hc1
        obtain ⟨ri, rg, rgr, rmem, ⟨m2, rv⟩, rtv⟩ := hrest
        refine ⟨ri, rg, rgr, ?_, ⟨m1 ++ m2, ?_⟩, ?_⟩
        · intro x hx
          rcases List.mem_cons.mp hx with rfl | hx'
          · show x ∈ (rest.foldl (fun acc dep => topological_sort fuel dep acc) t1).visited
            rw [rv]
            exact List.mem_append_left _ hstep.1
          · exact rmem x hx'
        · show (rest.foldl (fun acc dep => topological_sort fuel dep acc) t1).visited
              = t.visited ++ (m1 ++ m2)
          rw [rv, hv1, List.append_assoc]
        · show (rest.foldl (fun acc dep => topological_sort fuel dep acc) t1).temp_visited
              = t.temp_visited
          rw [rtv, htv1]
    have hdeps : ∀ d, d ∈ dget ts.graph package → d ∈ U :=
      fun d hd => hval package d hd
    have hgr1 : ts1.graph = ts.graph := rfl
    obtain ⟨hi2, hg2, hgr2, hmem2, ⟨m2, hv2⟩, htv2⟩ :=
      hfold (dget ts.graph package) ts1 hinv1 hgood1 hgr1 hdeps hcard1
    set ts2 := (dget ts.graph package).foldl
        (fun acc dep => topological_sort fuel dep acc) ts1 with hts2
    have htemp2 : ts2.temp_visited = ts.temp_visited ++ [package] := htv2
    have herase : ts2.temp_visited.erase package = ts.temp_visited := by
      rw [htemp2, List.erase_append_right _ h1, List.erase_cons_head,
        List.append_nil]
    constructor
    · show package ∈ ts2.visited
      rw [hv2]
      exact List.mem_append_left _ (by
        show package ∈ ts.visited ++ [package]; simp)
    · intro a ha hat b hb
      show b ∈ ts2.visited
      have hgb : b ∈ dget ts.graph a := by
        have : (⟨ts2.visited, ts2.temp_visited.erase package,
          ts2.stack ++ [package], ts2.graph⟩ : TopoState).graph = ts2.graph := rfl
        rw [show (⟨ts2.visited, ts2.temp_visited.erase package,
          ts2.stack ++ [package], ts2.graph⟩ : TopoState).graph = ts.graph
          from hgr2] at hb
        exact hb
      by_cases hap : a = package
      · subst hap
        exact hmem2 b hgb
      · have hat2 : a ∉ ts2.temp_visited := by
          rw [htemp2]
          simp only [List.mem_append, List.mem_singleton]
          rintro (h | rfl)
          · exact (show a ∉ ts.temp_visited from by
              have : a ∉ ts2.temp_visited.erase package := hat
              rw [herase] at this
              exact this) h
          · exact hap rfl
        exact hg2 a ha hat2 b (by rw [hgr2]; exact hgb)

/-- Edge relation of a graph: `b` is listed among the direct dependencies
of `a`. -/
def Edge (g : Graph) (a b : String) : Prop := b ∈ dget g a

/-- A graph with no cycles: no package reaches itself by a nonempty chain
of edges. -/
def Acyclic (g : Graph) : Prop :=
  ∀ x, ¬ Relation.TransGen (Edge g) x x

/-- Reachability from a start package through graph edges (including the
start itself). -/
inductive Reach (g : Graph) (start : String) : String → Prop
  | refl : Reach g start start
  | step {a b : String} : Reach g start a → Edge g a b → Reach g start b

/-- Ordering invariant of the accumulation stack: whenever a package is on
the stack, each of its direct dependencies already sits on the stack at an
earlier position. -/
def OrdInvG (g : Graph) (ts : TopoState) : Prop :=
  ∀ a, a ∈ ts.stack → ∀ b, b ∈ dget g a → [b, a].Sublist ts.stack

/-- On an acyclic graph, provided the fuel is adequate and every
temp-marked node has a path to the current package, `topological_sort`
preserves the ordering invariant. -/
theorem topological_sort_order (U : Finset String) (g : Graph)
    (hacyc : Acyclic g) :
    ∀ (fuel : Nat) (package : String) (ts : TopoState),
      TInv ts →
      ts.graph = g →
      package ∈ U →
      (∀ a b, b ∈ dget g a → b ∈ U) →
      (U \ ts.visited.toFinset).card < fuel →
      GoodDeps ts →
      (∀ x, x ∈ ts.temp_visited → Relation.TransGen (Edge g) x package) →
      OrdInvG g ts →
      OrdInvG g (topological_sort fuel package ts) := by
  intro fuel
  induction fuel with
  | zero =>
    intro package ts _ _ _ _ hcard _ _ _
    exact absurd hcard (Nat.not_lt_zero _)
  | succ fuel ih =>
    intro package ts hinv hgr hU hval hcard hgood hanc hord
    by_cases h1 : package ∈ ts.temp_visited
    · rw [topological_sort_stop fuel package ts (Or.inl h1)]; exact hord
    by_cases h2 : package ∈ ts.visited
    · rw [topological_sort_stop fuel package ts (Or.inr h2)]; exact hord
    rw [topological_sort_expand fuel package ts h1 h2]
    obtain ⟨hsn, htn, hviff, hdisj⟩ := hinv
    set ts1 : TopoState :=
      { ts with visited := ts.visited ++ [package],
                temp_visited := ts.temp_visited ++ [package] } with hts1
    have hinv1 : TInv ts1 := by
      refine ⟨hsn, htn.append (List.nodup_singleton _)
        (List.disjoint_singleton.2 h1), ?_, ?_⟩
      · intro x
        show x ∈ ts.visited ++ [package] ↔
          x ∈ ts.stack ∨ x ∈ ts.temp_visited ++ [package]
        simp only [List.mem_append, List.mem_singleton, hviff x]
        tauto
      · intro x hx
        show x ∉ ts.temp_visited ++ [package]
        simp only [List.mem_append, List.mem_singleton]
        rintro (h | rfl)
        · exact hdisj x hx h
        · exact h2 ((hviff x).mpr (Or.inl hx))
    have hgood1 : GoodDeps ts1 := by
      intro a ha hat b hb
      show b ∈ ts.visited ++ [package]
      have hanp : a ≠ package := by
        rintro rfl
        exact hat (by show a ∈ ts.temp_visited ++ [a]; simp)
      have ha' : a ∈ ts.visited := by
        rcases List.mem_append.mp ha with h | h
        · exact h
        · exact absurd (List.mem_singleton.mp h) hanp
      have hat' : a ∉ ts.temp_visited := fun h =>
        hat (List.mem_append_left _ h)
      exact List.mem_append_left _ (hgood a ha' hat' b hb)
    have hcard1 : (U \ ts1.visited.toFinset).card < fuel := by
      have hdiff : U \ ts1.visited.toFinset =
          (U \ ts.visited.toFinset).erase package := by
        ext x
        show x ∈ U \ (ts.visited ++ [package]).toFinset ↔ _
        simp only [Finset.mem_sdiff, Finset.mem_erase, List.mem_toFinset,
          List.mem_append, List.mem_singleton]
        tauto
      have hpmem : package ∈ U \ ts.visited.toFinset := by
        simp only [Finset.mem_sdiff, List.mem_toFinset]
        exact ⟨hU, h2⟩
      have hge : 1 ≤ (U \ ts.visited.toFinset).card :=
        Finset.card_pos.mpr ⟨package, hpmem⟩
      rw [hdiff, Finset.card_erase_of_mem hpmem]
      omega
    have htemp1 : ts1.temp_visited = ts.temp_visited ++ [package] := rfl
    have hanc1 : ∀ d, d ∈ dget g package →
        ∀ x, x ∈ ts1.temp_visited → Relation.TransGen (Edge g) x d := by
      intro d hd x hx
      rw [htemp1] at hx
      rcases List.mem_append.mp hx with hx | hx
      · exact (hanc x hx).tail hd
      · rw [List.mem_singleton.mp hx]
        exact Relation.TransGen.single hd
    -- fold over the dependency list, carrying all invariants
    have hfold : ∀ (deps : List String) (t : TopoState),
        TInv t → GoodDeps t → t.graph = g →
        (∀ d, d ∈ deps → d ∈ U) →
        (∀ d, d ∈ deps → ∀ x, x ∈ t.temp_visited →
          Relation.TransGen (Edge g) x d) →
        (U \ t.visited.toFinset).card < fuel →
        OrdInvG g t →
        TInv (deps.foldl (fun acc dep => topological_sort fuel dep acc) t) ∧
        GoodDeps (deps.foldl (fun acc dep => topological_sort fuel dep acc) t) ∧
        (deps.foldl (fun acc dep => topological_sort fuel dep acc) t).graph = g ∧
        OrdInvG g (deps.foldl (fun acc dep => topological_sort fuel dep acc) t) ∧
        (∀ d, d ∈ deps →
          d ∈ (deps.foldl (fun acc dep => topological_sort fuel dep acc) t).visited) ∧
        (∃ m, (deps.foldl (fun acc dep => topological_sort fuel dep acc) t).visited
            = t.visited ++ m) ∧
        (deps.foldl (fun acc dep => topological_sort fuel dep acc) t).temp_visited
            = t.temp_visited := by
      intro deps
      induction deps with
      | nil =>
        intro t hi hg hgrt _ _ _ ho
        exact ⟨hi, hg, hgrt, ho,
          (fun d hd => absurd hd (List.not_mem_nil d)), ⟨[], by simp⟩, rfl⟩
      | cons d rest ihd =>
        intro t hi hg hgrt hdU hda hc ho
        have hdU' : d ∈ U := hdU d (List.mem_cons_self d rest)
        have hval' : ∀ a b, b ∈ dget t.graph a → b ∈ U := by
          rw [hgrt]; exact hval
        have hcomp := topological_sort_complete U fuel d t hi hdU' hval' hc hg
        have hordd := ih d t hi hgrt hdU' hval hc hg
          (hda d (List.mem_cons_self d rest)) ho
        have hframe := topological_sort_tframe fuel d t
        obtain ⟨hgr1, htv1, _, ⟨m1, hv1⟩⟩ := hframe
        set t1 := topological_sort fuel d t with ht1
        have hi1 : TInv t1 := topological_sort_tinv fuel d t hi
        have hc1 : (U \ t1.visited.toFinset).card < fuel := by
          rw [hv1]
          exact lt_of_le_of_lt (card_sdiff_mono_of_visited m1) hc
        have hda1 : ∀ x, x ∈ rest → ∀ y, y ∈ t1.temp_visited →
            Relation.TransGen (Edge g) y x := by
          intro x hx y hy
          rw [htv1] at hy
          exact hda x (List.mem_cons_of_mem d hx) y hy
        have hrest := ihd t1 hi1 hcomp.2 (hgr1.trans hgrt)
          (fun x hx => hdU x (List.mem_cons_of_mem d hx)) hda1 hc1 hordd
        obtain ⟨ri, rg, rgr, ro, rmem, ⟨m2, rv⟩, rtv⟩ := hrest
        refine ⟨ri, rg, rgr, ro, ?_, ⟨m1 ++ m2, ?_⟩, ?_⟩
        · intro x hx
          rcases List.mem_cons.mp hx with rfl | hx'
          · show x ∈ (rest.foldl (fun acc dep => topological_sort fuel dep acc) t1).visited
            rw [rv]
            exact List.mem_append_left _ hcomp.1
          · exact rmem x hx'
        · show (rest.foldl (fun acc dep => topological_sort fuel dep acc) t1).visited
              = t.visited ++ (m1 ++ m2)
          rw [rv, hv1, List.append_assoc]
        · show (rest.foldl (fun acc dep => topological_sort fuel dep acc) t1).temp_visited
              = t.temp_visited
          rw [rtv, htv1]
    have hdeps : ∀ d, d ∈ dget g package → d ∈ U :=
      fun d hd => hval package d hd
    have hgr1 : ts1.graph = g := hgr
    have hdget : dget ts.graph package = dget g package := by rw [hgr]
    obtain ⟨hi2, hg2, hgr2, ho2, hmem2, ⟨m2, hv2⟩, htv2⟩ :=
      hfold (dget ts.graph package) ts1 hinv1 hgood1 hgr1
        (by rw [hdget]; exact hdeps)
        (by rw [hdget]; exact fun d hd x hx => hanc1 d hd x hx)
        hcard1 hord
    set ts2 := (dget ts.graph package).foldl
        (fun acc dep => topological_sort fuel dep acc) ts1 with hts2
    have htemp2 : ts2.temp_visited = ts.temp_visited ++ [package] := htv2
    intro a ha b hb
    show [b, a].Sublist (ts2.stack ++ [package])
    have hstack3 : (⟨ts2.visited, ts2.temp_visited.erase package,
        ts2.stack ++ [package], ts2.graph⟩ : TopoState).stack
        = ts2.stack ++ [package] := rfl
    rw [hstack3] at ha
    rcases List.mem_append.mp ha with ha2 | hap
    · exact (ho2 a ha2 b hb).trans (List.sublist_append_left _ _)
    · have hap' : a = package := List.mem_singleton.mp hap
      subst hap'
      have hbvis : b ∈ ts2.visited := hmem2 b (by rw [hdget]; exact hb)
      have hbst : b ∈ ts2.stack ∨ b ∈ ts2.temp_visited :=
        (hi2.2.2.1 b).mp hbvis
      rcases hbst with hbst | hbtemp
      · exact (List.singleton_sublist.mpr hbst).append
          (List.Sublist.refl [a])
      · exfalso
        rw [htemp2] at hbtemp
        rcases List.mem_append.mp hbtemp with hbt | hbp
        · exact hacyc b ((hanc b hbt).trans (Relation.TransGen.single hb))
        · rw [List.mem_singleton.mp hbp] at hb
          exact hacyc a (Relation.TransGen.single hb)

/-- Every dependency value of a graph occurs among the graph's nodes. -/
theorem mem_dget_nodesOf {g : Graph} {a b : String} (h : b ∈ dget g a) :
    b ∈ nodesOf g := by
  induction g with
  | nil => simp [dget, lookupA] at h
  | cons kv rest ih =>
    obtain ⟨k, v⟩ := kv
    show b ∈ k :: (v ++ nodesOf rest)
    by_cases hk : k = a
    · have : b ∈ v := by simpa [dget, lookupA, hk] using h
      simp [this]
    · have : b ∈ dget rest a := by simpa [dget, lookupA, hk] using h
      simp [ih this]

/-- The `topological_sort` run performed by `get_load_order`, named so the
run's invariants can be stated once and reused. -/
def runTopo (st : BuildState) (start_package : String) : TopoState :=
  topological_sort ((start_package :: nodesOf st.graph).dedup.length + 1)
    start_package
    { visited := [], temp_visited := [], stack := [], graph := st.graph }

theorem get_load_order_eq (st : BuildState) (start_package : String) :
    get_load_order st start_package =
      ((runTopo st start_package).stack.reverse,
       { st with graph := (runTopo st start_package).graph }) := rfl

/-- Collected facts about the run inside `get_load_order`: the graph comes
back untouched, the temp set ends empty, the state invariants hold, every
fully processed node has its dependencies visited, the start package is
visited, and the visited set coincides with the stack. -/
theorem runTopo_facts (st : BuildState) (start_package : String) :
    (runTopo st start_package).graph = st.graph ∧
    (runTopo st start_package).temp_visited = [] ∧
    TInv (runTopo st start_package) ∧
    GoodDeps (runTopo st start_package) ∧
    start_package ∈ (runTopo st start_package).visited ∧
    (∀ x, x ∈ (runTopo st start_package).visited ↔
      x ∈ (runTopo st start_package).stack) := by
  set g := st.graph with hg
  set U := (start_package :: nodesOf g).dedup.toFinset with hU
  set fuel := (start_package :: nodesOf g).dedup.length + 1 with hfuel
  set ts0 : TopoState :=
    { visited := [], temp_visited := [], stack := [], graph := g } with hts0
  have hinv0 : TInv ts0 := by
    refine ⟨List.nodup_nil, List.nodup_nil, ?_, ?_⟩ <;> simp [hts0]
  have hgood0 : GoodDeps ts0 := by
    intro a ha
    simp [hts0] at ha
  have hstart : start_package ∈ U := by
    simp [hU, List.mem_dedup]
  have hval : ∀ a b, b ∈ dget ts0.graph a → b ∈ U := by
    intro a b hb
    have : b ∈ nodesOf g := mem_dget_nodesOf hb
    simp [hU, List.mem_dedup, this]
  have hcard : (U \ ts0.visited.toFinset).card < fuel := by
    have h1 : ts0.visited.toFinset = (∅ : Finset String) := by simp [hts0]
    have h2 : U.card ≤ (start_package :: nodesOf g).dedup.length :=
      List.toFinset_card_le _
    rw [h1, Finset.sdiff_empty]
    omega
  have hcomp := topological_sort_complete U fuel start_package ts0
    hinv0 hstart hval hcard hgood0
  have hframe := topological_sort_tframe fuel start_package ts0
  have hinv' := topological_sort_tinv fuel start_package ts0 hinv0
  obtain ⟨hgr, htv, _, _⟩ := hframe
  have hrun : runTopo st start_package = topological_sort fuel start_package ts0 := rfl
  rw [hrun]
  refine ⟨hgr, htv, hinv', hcomp.2, hcomp.1, ?_⟩
  intro x
  rw [hinv'.2.2.1 x, htv]
  show _ ↔ x ∈ (topological_sort fuel start_package ts0).stack
  simp

/-- Every package reachable from the start in the graph ends up visited by
the `get_load_order` run. -/
theorem runTopo_reach_visited (st : BuildState) (start_package x : String)
    (hr : Reach st.graph start_package x) :
    x ∈ (runTopo st start_package).visited := by
  obtain ⟨hgr, htv, _, hgood, hstart, _⟩ := runTopo_facts st start_package
  induction hr with
  | refl => exact hstart
  | step ha hab ihx =>
    refine hgood _ ihx ?_ _ ?_
    · rw [htv]; exact List.not_mem_nil _
    · rw [hgr]; exact hab

/-- A two-node test environment: a manifest declaring `A: B` and `B:`
(no dependencies), analyzed in test mode with ample depth. -/
def envAB : Env :=
  { test_repository_mode := true,
    testFile := some [("A", ["B"]), ("B", [])],
    registry := fun _ => FetchOutcome.fail,
    max_depth := 5 }

/-- The builder state after `build_complete_graph("A")` on a fresh
instance in `envAB`; its graph is `A -> [B]`. -/
def builtAB : BuildState := (build_complete_graph envAB initBuild "A").2

/-- C1 counterexample. The claim says that for a cycle-free graph built
with ample depth, `get_load_order` places each dependency before its
dependent.  On the graph `A -> [B]` built from `A`, the returned order is
`[A, B]`: the dependency `B` appears after its dependent `A`, not before
it. -/
theorem get_load_order_edge_order_cex :
    builtAB.graph = [("A", ["B"])] ∧
    (get_load_order builtAB "A").1 = ["A", "B"] ∧
    ¬ List.Sublist ["B", "A"] (get_load_order builtAB "A").1 := by decide

/-- C1 (amended): for every cycle-free graph held by a builder state and
every edge `a -> b` of it, if `a` occurs in `get_load_order`'s output then
`a` appears before its dependency `b` — the returned sequence is the
reverse of the post-order accumulation, so dependents precede their
dependencies. -/
theorem get_load_order_edge_order (st : BuildState)
    (start_package a b : String)
    (hacyc : Acyclic st.graph)
    (hedge : b ∈ dget st.graph a)
    (ha : a ∈ (get_load_order st start_package).1) :
    List.Sublist [a, b] (get_load_order st start_package).1 := by
  set g := st.graph with hg
  set U := (start_package :: nodesOf g).dedup.toFinset with hU
  set fuel := (start_package :: nodesOf g).dedup.length + 1 with hfuel
  set ts0 : TopoState :=
    { visited := [], temp_visited := [], stack := [], graph := g } with hts0
  have hinv0 : TInv ts0 := by
    refine ⟨List.nodup_nil, List.nodup_nil, ?_, ?_⟩ <;> simp [hts0]
  have hgood0 : GoodDeps ts0 := by
    intro c hc
    simp [hts0] at hc
  have hstart : start_package ∈ U := by
    simp [hU, List.mem_dedup]
  have hval : ∀ c d, d ∈ dget g c → d ∈ U := by
    intro c d hd
    have : d ∈ nodesOf g := mem_dget_nodesOf hd
    simp [hU, List.mem_dedup, this]
  have hcard : (U \ ts0.visited.toFinset).card < fuel := by
    have h1 : ts0.visited.toFinset = (∅ : Finset String) := by simp [hts0]
    have h2 : U.card ≤ (start_package :: nodesOf g).dedup.length :=
      List.toFinset_card_le _
    rw [h1, Finset.sdiff_empty]
    omega
  have hanc0 : ∀ x, x ∈ ts0.temp_visited →
      Relation.TransGen (Edge g) x start_package := by
    intro x hx
    simp [hts0] at hx
  have hord0 : OrdInvG g ts0 := by
    intro c hc
    simp [hts0] at hc
  have hord := topological_sort_order U g hacyc fuel start_package ts0
    hinv0 rfl hstart hval hcard hgood0 hanc0 hord0
  have hrun : runTopo st start_package
      = topological_sort fuel start_package ts0 := rfl
  rw [get_load_order_eq] at ha ⊢
  have has : a ∈ (runTopo st start_package).stack := by
    have := List.mem_reverse.mp ha
    exact this
  have hsub : List.Sublist [b, a] (runTopo st start_package).stack := by
    rw [hrun]
    exact hord a (by rw [← hrun]; exact has) b hedge
  have := List.reverse_sublist.mpr hsub
  simpa using this

/-- C1 witness: instantiating the amended ordering theorem on the built
graph `A -> [B]` with the edge `A -> B`. -/
theorem get_load_order_edge_order_witness :
    Acyclic builtAB.graph ∧
    ("B" : String) ∈ dget builtAB.graph "A" ∧
    ("A" : String) ∈ (get_load_order builtAB "A").1 ∧
    List.Sublist ["A", "B"] (get_load_order builtAB "A").1 := by
  have hgr : builtAB.graph = [("A", ["B"])] := by decide
  have key : ∀ x y, Relation.TransGen (Edge builtAB.graph) x y →
      x = "A" ∧ y = "B" := by
    intro x y h
    induction h with
    | single h =>
      have hxA : x = "A" := by
        by_contra hx
        have hthis : Edge [("A", ["B"])] x _ := hgr ▸ h
        rw [show Edge [("A", ["B"])] x _ =
          (_ ∈ (if "A" = x then some ["B"] else none).getD []) from rfl,
          if_neg (fun hh => hx hh.symm)] at hthis
        simp at hthis
      refine ⟨hxA, ?_⟩
      subst hxA
      have hthis : Edge [("A", ["B"])] "A" _ := hgr ▸ h
      simpa [Edge, dget, lookupA] using hthis
    | tail h1 h2 ih =>
      exfalso
      have hb : _ = "B" := ih.2
      rw [hb] at h2
      have : Edge [("A", ["B"])] "B" _ := hgr ▸ h2
      simp [Edge, dget, lookupA] at this
  have hacyc : Acyclic builtAB.graph := by
    intro x h
    obtain ⟨h1, h2⟩ := key x x h
    rw [h1] at h2
    exact absurd h2 (by decide)
  have hedge : ("B" : String) ∈ dget builtAB.graph "A" := by decide
  have hmem : ("A" : String) ∈ (get_load_order builtAB "A").1 := by decide
  exact ⟨hacyc, hedge, hmem,
    get_load_order_edge_order builtAB "A" "A" "B" hacyc hedge hmem⟩

/-- C2 counterexample. The claim says every key or value of the built
Graph appears exactly once in `get_load_order(start)` for every start
package.  On the graph `A -> [B]` built from `A`, calling
`get_load_order("B")` returns `["B"]`: the key `A` of the Graph does not
appear at all. -/
theorem get_load_order_count_cex :
    builtAB.graph = [("A", ["B"])] ∧
    (get_load_order builtAB "B").1 = ["B"] ∧
    ((get_load_order builtAB "B").1).count "A" = 0 := by decide

/-- C2 (amended): every package reachable from the start package through
edges of the builder's graph appears exactly once in `get_load_order`'s
output (members of cycles included — no omission, no duplication, and the
traversal terminates).  Keys or values unreachable from the start are not
emitted. -/
theorem get_load_order_reachable_count (st : BuildState)
    (start_package x : String)
    (hr : Reach st.graph start_package x) :
    ((get_load_order st start_package).1).count x = 1 := by
  obtain ⟨hgr, htv, hinv, hgood, hstart, hiff⟩ := runTopo_facts st start_package
  have hx := runTopo_reach_visited st start_package x hr
  have hxs : x ∈ (runTopo st start_package).stack := (hiff x).mp hx
  rw [get_load_order_eq]
  exact List.count_eq_one_of_mem (List.nodup_reverse.mpr hinv.1)
    (List.mem_reverse.mpr hxs)

/-- C2 witness: on the built graph `A -> [B]`, the package `B` is
reachable from `A` and appears exactly once in the load order. -/
theorem get_load_order_reachable_count_witness :
    Reach builtAB.graph "A" "B" ∧
    ((get_load_order builtAB "A").1).count "B" = 1 := by
  have hr : Reach builtAB.graph "A" "B" :=
    Reach.step Reach.refl
      (show ("B" : String) ∈ dget builtAB.graph "A" by decide)
  exact ⟨hr, get_load_order_reachable_count builtAB "A" "B" hr⟩

/-- C9: `get_load_order` leaves the builder state untouched — the graph
keeps exactly the same keys and edge lists (lookups go through `dict.get`,
which creates no `defaultdict` entry), and the cycles list, visited set and
recursion stack of the builder are unchanged, for every start package,
including one absent from the graph. -/
theorem get_load_order_preserves_state (st : BuildState)
    (start_package : String) :
    (get_load_order st start_package).2 = st := by
  rw [get_load_order_eq]
  show ({ st with graph := (runTopo st start_package).graph }) = st
  rw [(runTopo_facts st start_package).1]

/-- C10: for every builder state and start package — also one with no
entry in the graph — `get_load_order` returns a non-empty sequence whose
first element is the start package itself. -/
theorem get_load_order_head (st : BuildState) (start_package : String) :
    ∃ rest, (get_load_order st start_package).1 = start_package :: rest := by
  rw [get_load_order_eq]
  show ∃ rest, (runTopo st start_package).stack.reverse = start_package :: rest
  have hlast : ∃ l, (runTopo st start_package).stack = l ++ [start_package] := by
    show ∃ l, (topological_sort ((start_package :: nodesOf st.graph).dedup.length + 1)
      start_package
      { visited := [], temp_visited := [], stack := [], graph := st.graph }).stack
        = l ++ [start_package]
    rw [topological_sort_expand _ _ _ (List.not_mem_nil _) (List.not_mem_nil _)]
    exact ⟨_, rfl⟩
  obtain ⟨l, hl⟩ := hlast
  exact ⟨l.reverse, by rw [hl]; simp⟩

/-- Looking up a key just appended to the end of a cache that did not
contain it finds the appended value. -/
theorem lookupA_append_self {c : List (String × List String)} {p : String}
    (h : lookupA c p = none) (v : List String) :
    lookupA (c ++ [(p, v)]) p = some v := by
  induction c with
  | nil => simp [lookupA]
  | cons kv rest ih =>
    obtain ⟨k, w⟩ := kv
    by_cases hk : k = p
    · simp [lookupA, hk] at h
    · rw [lookupA, if_neg hk] at h
      show lookupA ((k, w) :: (rest ++ [(p, v)])) p = some v
      rw [lookupA, if_neg hk]
      exact ih h

/-- A test environment whose manifest file declares `X: Y`. -/
def envX : Env :=
  { test_repository_mode := true,
    testFile := some [("X", ["Y"])],
    registry := fun _ => FetchOutcome.fail,
    max_depth := 3 }

/-- A test-mode environment whose manifest file is absent
(`os.path.exists` fails, so `_extract_from_test_file` raises). -/
def envMissing : Env :=
  { test_repository_mode := true,
    testFile := none,
    registry := fun _ => FetchOutcome.fail,
    max_depth := 3 }

/-- A registry-mode environment in which every crates.io lookup fails
(non-200, timeout or transport error). -/
def envRegFail : Env :=
  { test_repository_mode := false,
    testFile := none,
    registry := fun _ => FetchOutcome.fail,
    max_depth := 3 }

/-- C5 counterexample. The claim says two calls of
`extract_dependencies_for_package(X)` within one run always perform exactly
one underlying Manifest Source fetch.  In test mode with the manifest file
absent, each call misses the cache (nothing was stored, since the exception
propagates before the cache assignment) and consults the source again: two
calls perform two fetches. -/
theorem extract_memoizes_cex :
    ((extract_dependencies_for_package envMissing
      ((extract_dependencies_for_package envMissing initAnalyzer "X").2)
      "X").2).fetchCount = 2 ∧
    ((extract_dependencies_for_package envMissing
      ((extract_dependencies_for_package envMissing initAnalyzer "X").2)
      "X").2).cache = [] := by decide

/-- C5 (amended): a first call from a fresh analyzer performs exactly one
underlying fetch, and whenever a call returns normally (`Except.ok`), a
repeated call for the same package returns the stored result with no state
change at all — in particular no second Manifest Source fetch.  (When the
first call raises — test mode, missing file — nothing is stored and a later
call re-queries the source.) -/
theorem extract_memoizes :
    (∀ (env : Env) (package : String),
      ((extract_dependencies_for_package env initAnalyzer package).2).fetchCount
        = 1) ∧
    (∀ (env : Env) (st : AnalyzerState) (package : String) (v : List String),
      (extract_dependencies_for_package env st package).1 = Except.ok v →
      extract_dependencies_for_package env
          ((extract_dependencies_for_package env st package).2) package
        = (Except.ok v, (extract_dependencies_for_package env st package).2)) := by
  constructor
  · intro env package
    show ((extract_dependencies_for_package env { cache := [], fetchCount := 0 }
      package).2).fetchCount = 1
    simp only [extract_dependencies_for_package, lookupA]
    by_cases hm : env.test_repository_mode
    · cases hfile : env.testFile with
      | none => simp [hm, hfile]
      | some table => simp [hm, hfile]
    · simp [hm]
  · intro env st package v hok
    cases hc : lookupA st.cache package with
    | some r =>
      have h1 : extract_dependencies_for_package env st package
          = (Except.ok r, st) := by
        simp [extract_dependencies_for_package, hc]
      rw [h1] at hok ⊢
      have hv : r = v := by
        simpa using hok
      rw [h1, hv]
    | none =>
      by_cases hm : env.test_repository_mode
      · cases hfile : env.testFile with
        | none =>
          have h1 : (extract_dependencies_for_package env st package).1
              = Except.error "test file not found" := by
            simp [extract_dependencies_for_package, hc, hm, hfile]
          rw [h1] at hok
          cases hok
        | some table =>
          have h1 : extract_dependencies_for_package env st package
              = (Except.ok ((lookupA table package).getD []),
                 { cache := st.cache ++ [(package, (lookupA table package).getD [])],
                   fetchCount := st.fetchCount + 1 }) := by
            simp [extract_dependencies_for_package, hc, hm, hfile]
          rw [h1] at hok ⊢
          have hv : (lookupA table package).getD [] = v := by simpa using hok
          subst hv
          simp [extract_dependencies_for_package,
            lookupA_append_self hc]
      · have h1 : extract_dependencies_for_package env st package
            = (Except.ok (get_crate_dependencies env package),
               { cache := st.cache ++
                   [(package, get_crate_dependencies env package)],
                 fetchCount := st.fetchCount + 1 }) := by
          simp [extract_dependencies_for_package, hc, hm]
        rw [h1] at hok ⊢
        have hv : get_crate_dependencies env package = v := by simpa using hok
        subst hv
        simp [extract_dependencies_for_package, lookupA_append_self hc]

/-- C5 witness: in the environment whose manifest declares `X: Y`, the
first call fetches once and returns `[Y]`, and the second call returns the
stored result with no state change. -/
theorem extract_memoizes_witness :
    ((extract_dependencies_for_package envX initAnalyzer "X").2).fetchCount = 1 ∧
    (extract_dependencies_for_package envX initAnalyzer "X").1
      = Except.ok ["Y"] ∧
    extract_dependencies_for_package envX
        ((extract_dependencies_for_package envX initAnalyzer "X").2) "X"
      = (Except.ok ["Y"], (extract_dependencies_for_package envX initAnalyzer "X").2) :=
  ⟨extract_memoizes.1 envX "X", by decide,
   extract_memoizes.2 envX initAnalyzer "X" ["Y"] (by decide)⟩

/-- C6 counterexample. The claim says a failed fetch is never memoized in
either mode.  In registry mode a failed crates.io lookup is converted to
`[]` inside `_get_crate_dependencies` and that empty list IS stored in the
cache: after the failing first call (fetch count 1) the second call
returns the cached `[]` with no state change — the underlying fetch is not
performed again. -/
theorem extract_error_caching_cex :
    ((extract_dependencies_for_package envRegFail initAnalyzer "X").2).cache
      = [("X", [])] ∧
    ((extract_dependencies_for_package envRegFail initAnalyzer "X").2).fetchCount
      = 1 ∧
    extract_dependencies_for_package envRegFail
        ((extract_dependencies_for_package envRegFail initAnalyzer "X").2) "X"
      = (Except.ok [],
         (extract_dependencies_for_package envRegFail initAnalyzer "X").2) := by
  decide

/-- C6 (amended): in test mode a failed fetch (missing manifest file) is
not memoized — the cache is unchanged and a later call for the same package
consults the Manifest Source again; in registry mode a failed fetch yields
an empty dependency list that IS memoized, so a later call returns the
cached empty list without re-fetching. -/
theorem extract_error_caching :
    (∀ (env : Env) (st : AnalyzerState) (package : String),
      env.test_repository_mode = true → env.testFile = none →
      lookupA st.cache package = none →
      (extract_dependencies_for_package env st package).2.cache = st.cache ∧
      (extract_dependencies_for_package env st package).2.fetchCount
        = st.fetchCount + 1 ∧
      ((extract_dependencies_for_package env
          ((extract_dependencies_for_package env st package).2)
          package).2).fetchCount = st.fetchCount + 2) ∧
    (∀ (env : Env) (st : AnalyzerState) (package : String),
      env.test_repository_mode = false →
      env.registry package = FetchOutcome.fail →
      lookupA st.cache package = none →
      extract_dependencies_for_package env st package
        = (Except.ok [],
           { cache := st.cache ++ [(package, [])],
             fetchCount := st.fetchCount + 1 }) ∧
      extract_dependencies_for_package env
          ((extract_dependencies_for_package env st package).2) package
        = (Except.ok [],
           (extract_dependencies_for_package env st package).2)) := by
  constructor
  · intro env st package hm hfile hc
    have h1 : extract_dependencies_for_package env st package
        = (Except.error "test file not found",
           { st with fetchCount := st.fetchCount + 1 }) := by
      simp [extract_dependencies_for_package, hc, hm, hfile]
    rw [h1]
    refine ⟨rfl, rfl, ?_⟩
    have h2 : extract_dependencies_for_package env
        ({ st with fetchCount := st.fetchCount + 1 }) package
        = (Except.error "test file not found",
           { st with fetchCount := st.fetchCount + 1 + 1 }) := by
      simp [extract_dependencies_for_package, hc, hm, hfile]
    rw [h2]
  · intro env st package hm hreg hc
    have hget : get_crate_dependencies env package = [] := by
      simp [get_crate_dependencies, hreg]
    have h1 : extract_dependencies_for_package env st package
        = (Except.ok [],
           { cache := st.cache ++ [(package, [])],
             fetchCount := st.fetchCount + 1 }) := by
      simp [extract_dependencies_for_package, hc, hm, hget]
    refine ⟨h1, ?_⟩
    rw [h1]
    simp [extract_dependencies_for_package, lookupA_append_self hc]

/-- C6 witness: instantiating both halves of the amended statement — the
missing-file retry in test mode, and the memoized empty list after a failed
registry fetch. -/
theorem extract_error_caching_witness :
    (((extract_dependencies_for_package envMissing initAnalyzer "X").2).cache = [] ∧
     ((extract_dependencies_for_package envMissing initAnalyzer "X").2).fetchCount = 1 ∧
     ((extract_dependencies_for_package envMissing
        ((extract_dependencies_for_package envMissing initAnalyzer "X").2)
        "X").2).fetchCount = 2) ∧
    (extract_dependencies_for_package envRegFail initAnalyzer "X"
      = (Except.ok [], { cache := [("X", [])], fetchCount := 1 }) ∧
     extract_dependencies_for_package envRegFail
        ((extract_dependencies_for_package envRegFail initAnalyzer "X").2) "X"
      = (Except.ok [],
         (extract_dependencies_for_package envRegFail initAnalyzer "X").2)) := by
  constructor
  · have h := extract_error_caching.1 envMissing initAnalyzer "X" rfl rfl rfl
    exact ⟨h.1, h.2.1, h.2.2⟩
  · have h := extract_error_caching.2 envRegFail initAnalyzer "X" rfl rfl rfl
    exact ⟨h.1, h.2⟩

/-- Unfolding: when the package sits on the recursion stack, `_dfs`
records a cycle and returns without recursing. -/
theorem dfs_cycle (env : Env) (fuel : Nat) (package : String)
    (path : List String) (st : BuildState)
    (h : package ∈ st.recursion_stack) :
    dfs env (fuel + 1) package path st
      = { st with cycles := st.cycles ++ [pathCycle path package] } := by
  simp [dfs, h]

/-- Unfolding: an already fully processed package is skipped. -/
theorem dfs_visited (env : Env) (fuel : Nat) (package : String)
    (path : List String) (st : BuildState)
    (h1 : package ∉ st.recursion_stack) (h2 : package ∈ st.visited) :
    dfs env (fuel + 1) package path st = st := by
  simp [dfs, h1, h2]

/-- Unfolding: expansion of a fresh package whose dependency fetch raises
(the `except` arm of main.py 100-101): the node is marked visited, the
analyzer state records the attempted fetch, no edges are added, and the
recursion stack is restored. -/
theorem dfs_expand_error (env : Env) (fuel : Nat) (package : String)
    (path : List String) (st : BuildState) (a : AnalyzerState) (msg : String)
    (h1 : package ∉ st.recursion_stack) (h2 : package ∉ st.visited)
    (hx : extract_dependencies_for_package env st.analyzer package
      = (Except.error msg, a)) :
    dfs env (fuel + 1) package path st
      = { st with visited := st.visited ++ [package], analyzer := a } := by
  simp only [dfs, if_neg h1, if_neg h2]
  rw [hx]
  show ({ st with visited := st.visited ++ [package],
                  recursion_stack := (st.recursion_stack ++ [package]).erase package,
                  analyzer := a } : BuildState)
      = { st with visited := st.visited ++ [package], analyzer := a }
  rw [List.erase_append_right _ h1, List.erase_cons_head, List.append_nil]

/-- Unfolding: expansion of a fresh package whose dependency fetch
succeeds: the node is marked visited and on-stack, each dependency edge is
appended and recursed into in order, and the recursion stack entry is
removed at the end. -/
theorem dfs_expand_ok (env : Env) (fuel : Nat) (package : String)
    (path : List String) (st : BuildState) (a : AnalyzerState)
    (deps : List String)
    (h1 : package ∉ st.recursion_stack) (h2 : package ∉ st.visited)
    (hx : extract_dependencies_for_package env st.analyzer package
      = (Except.ok deps, a)) :
    dfs env (fuel + 1) package path st
      = (fun st2 : BuildState =>
          { st2 with recursion_stack := st2.recursion_stack.erase package })
        (deps.foldl
          (fun acc dep =>
            dfs env fuel dep (path ++ [package])
              { acc with graph := graphAppend acc.graph package dep })
          { analyzer := a, graph := st.graph,
            visited := st.visited ++ [package],
            recursion_stack := st.recursion_stack ++ [package],
            cycles := st.cycles }) := by
  simp only [dfs, if_neg h1, if_neg h2]
  rw [hx]

/-- A fold of depth-exhausted recursive calls only appends the edges: at
fuel 0 every inner `_dfs` call returns immediately. -/
theorem foldl_dfs_zero (env : Env) (package : String) (path : List String) :
    ∀ (deps : List String) (acc : BuildState),
      deps.foldl
        (fun acc dep =>
          dfs env 0 dep path { acc with graph := graphAppend acc.graph package dep })
        acc
      = { acc with graph := deps.foldl (fun g d => graphAppend g package d) acc.graph } := by
  intro deps
  induction deps with
  | nil => intro acc; rfl
  | cons d rest ih =>
    intro acc
    show rest.foldl _ (dfs env 0 d path { acc with graph := graphAppend acc.graph package d }) = _
    rw [show dfs env 0 d path { acc with graph := graphAppend acc.graph package d }
      = { acc with graph := graphAppend acc.graph package d } from rfl]
    rw [ih]
    rfl

/-- Folding `graphAppend` for one key over a singleton graph accumulates
the dependency list of that key. -/
theorem foldl_graphAppend_cons (package : String) :
    ∀ (ds vs : List String),
      ds.foldl (fun g d => graphAppend g package d) [(package, vs)]
        = [(package, vs ++ ds)] := by
  intro ds
  induction ds with
  | nil => intro vs; simp
  | cons d rest ih =>
    intro vs
    show rest.foldl _ (graphAppend [(package, vs)] package d) = _
    rw [show graphAppend [(package, vs)] package d = [(package, vs ++ [d])] by
      simp [graphAppend]]
    rw [ih]
    simp

/-- Folding `graphAppend` for one key over the empty graph yields either
nothing (no dependencies) or the single entry for that key. -/
theorem foldl_graphAppend_nil (package : String) (ds : List String) :
    ds.foldl (fun g d => graphAppend g package d) []
      = if ds = [] then [] else [(package, ds)] := by
  cases ds with
  | nil => rfl
  | cons d rest =>
    show rest.foldl _ (graphAppend [] package d) = _
    rw [show graphAppend [] package d = [(package, [d])] from rfl,
      foldl_graphAppend_cons]
    simp

/-- C7: `build_complete_graph` with `max_depth = 0` returns an empty Graph
for every environment and start package, and with `max_depth = 1` returns
at most the single entry mapping the start package to its direct
dependencies (exactly that entry when the fetch succeeds with a non-empty
list; no entry when it fails or returns no dependencies), with no
grandchild edges and no expansion of the direct dependencies. -/
theorem build_depth_truncation (e : Env) (start_package : String) :
    (build_complete_graph { e with max_depth := 0 } initBuild start_package).1
      = [] ∧
    ((build_complete_graph { e with max_depth := 1 } initBuild start_package).1
        = [] ∨
      ∃ ds, (extract_dependencies_for_package e initAnalyzer start_package).1
          = Except.ok ds ∧
        (build_complete_graph { e with max_depth := 1 } initBuild
          start_package).1 = [(start_package, ds)]) := by
  constructor
  · rfl
  · cases hx : extract_dependencies_for_package e initAnalyzer start_package with
    | mk r a =>
      cases r with
      | error msg =>
        left
        show (dfs { e with max_depth := 1 } (0 + 1) start_package [] initBuild).graph = []
        rw [dfs_expand_error { e with max_depth := 1 } 0 start_package []
          initBuild a msg (List.not_mem_nil _) (List.not_mem_nil _) hx]
        rfl
      | ok deps =>
        cases deps with
        | nil =>
          left
          show (dfs { e with max_depth := 1 } (0 + 1) start_package [] initBuild).graph = []
          rw [dfs_expand_ok { e with max_depth := 1 } 0 start_package []
            initBuild a [] (List.not_mem_nil _) (List.not_mem_nil _) hx]
          rfl
        | cons d rest =>
          right
          refine ⟨d :: rest, by simp [hx], ?_⟩
          show (dfs { e with max_depth := 1 } (0 + 1) start_package [] initBuild).graph
            = [(start_package, d :: rest)]
          rw [dfs_expand_ok { e with max_depth := 1 } 0 start_package []
            initBuild a (d :: rest) (List.not_mem_nil _) (List.not_mem_nil _) hx]
          show ((d :: rest).foldl
            (fun acc dep => dfs { e with max_depth := 1 } 0 dep ([] ++ [start_package])
              { acc with graph := graphAppend acc.graph start_package dep })
            { analyzer := a, graph := initBuild.graph,
              visited := initBuild.visited ++ [start_package],
              recursion_stack := initBuild.recursion_stack ++ [start_package],
              cycles := initBuild.cycles }).graph = [(start_package, d :: rest)]
          rw [foldl_dfs_zero]
          show (d :: rest).foldl (fun g dep => graphAppend g start_package dep) [] = _
          rw [foldl_graphAppend_nil]
          simp

/-- When the sought element occurs in the list, the slice from its first
occurrence starts with it. -/
theorem sliceFrom_eq_cons {path : List String} {p : String} (h : p ∈ path) :
    ∃ rest, sliceFrom path p = p :: rest := by
  induction path with
  | nil => cases h
  | cons x xs ih =>
    by_cases hx : x = p
    · exact ⟨xs, by simp [sliceFrom, hx]⟩
    · have h' : p ∈ xs := by
        rcases List.mem_cons.mp h with h | h
        · exact absurd h.symm hx
        · exact h
      obtain ⟨rest, hr⟩ := ih h'
      exact ⟨rest, by simp [sliceFrom, hx, hr]⟩

/-- A test environment with the self-loop manifest `A: A`. -/
def envSelf : Env :=
  { test_repository_mode := true,
    testFile := some [("A", ["A"])],
    registry := fun _ => FetchOutcome.fail,
    max_depth := 5 }

/-- C8: whenever `_dfs` reaches a package currently on the recursion
stack, it records exactly the cycle `path[path.index(package):] + [package]`
and returns without recursing or touching any other state; provided the
package occurs in the path (which holds on every reachable state), the
recorded cycle starts and ends with that package.  In particular the
self-loop `A: A` is detected as the cycle `[A, A]` and the terminating
build returns the graph `A -> [A]`. -/
theorem dfs_cycle_detection :
    (∀ (env : Env) (fuel : Nat) (package : String) (path : List String)
        (st : BuildState),
      package ∈ st.recursion_stack → package ∈ path →
      dfs env (fuel + 1) package path st
          = { st with cycles := st.cycles ++ [pathCycle path package] } ∧
        (pathCycle path package).head? = some package ∧
        (pathCycle path package).getLast? = some package) ∧
    (build_complete_graph envSelf initBuild "A").2.cycles = [["A", "A"]] ∧
    (build_complete_graph envSelf initBuild "A").1 = [("A", ["A"])] := by
  refine ⟨?_, by decide, by decide⟩
  intro env fuel package path st h1 h2
  refine ⟨dfs_cycle env fuel package path st h1, ?_, ?_⟩
  · obtain ⟨rest, hr⟩ := sliceFrom_eq_cons h2
    simp [pathCycle, hr]
  · simp [pathCycle]

/-- C8 witness: a state with `A` on the recursion stack, reached along the
path `[A]`, records the one-package cycle `[A, A]`. -/
theorem dfs_cycle_detection_witness :
    ("A" : String) ∈
      (({ initBuild with visited := ["A"], recursion_stack := ["A"] }
        : BuildState)).recursion_stack ∧
    ("A" : String) ∈ ["A"] ∧
    dfs envSelf 1 "A" ["A"]
        { initBuild with visited := ["A"], recursion_stack := ["A"] }
      = { initBuild with visited := ["A"], recursion_stack := ["A"],
                         cycles := [["A", "A"]] } ∧
    (pathCycle ["A"] "A").head? = some "A" ∧
    (pathCycle ["A"] "A").getLast? = some "A" := by
  have h := dfs_cycle_detection.1 envSelf 0 "A" ["A"]
    { initBuild with visited := ["A"], recursion_stack := ["A"] }
    (by decide) (by decide)
  exact ⟨by decide, by decide, h.1, h.2.1, h.2.2⟩

/-- C3 counterexample. The claim says builder state is created fresh per
`build_complete_graph` invocation, so a second call on the same instance
matches a first call on a new instance.  The state is in fact created in
`__init__` and persists: after building from `A` in the `A: B` environment,
a second call on the same instance with start `B` returns the accumulated
graph `A -> [B]`, while a fresh instance returns the empty graph. -/
theorem build_state_persists_cex :
    (build_complete_graph envAB
        (build_complete_graph envAB initBuild "A").2 "B").1 = [("A", ["B"])] ∧
    (build_complete_graph envAB initBuild "B").1 = [] ∧
    ([("A", ["B"])] : Graph) ≠ [] := by decide

/-- C3 (amended): the Graph, visited set, recursion stack and cycle list
are created once per `DependencyGraph` instance (in the constructor) and
persist across `build_complete_graph` invocations; consequently a repeated
call whose start package was already visited returns the previously
accumulated graph with the instance state completely unchanged — the result
depends on earlier invocations. -/
theorem build_state_persists (env : Env) (st : BuildState)
    (start_package : String)
    (h1 : start_package ∈ st.visited)
    (h2 : start_package ∉ st.recursion_stack) :
    build_complete_graph env st start_package = (st.graph, st) := by
  have hdfs : dfs env env.max_depth start_package [] st = st := by
    cases hmd : env.max_depth with
    | zero => rfl
    | succ k => exact dfs_visited env k start_package [] st h2 h1
  show ((dfs env env.max_depth start_package [] st).graph,
        dfs env env.max_depth start_package [] st) = (st.graph, st)
  rw [hdfs]

/-- C3 witness: after building from `A`, the package `B` is visited, and a
second build from `B` on the same instance returns the state unchanged. -/
theorem build_state_persists_witness :
    ("B" : String) ∈ builtAB.visited ∧
    ("B" : String) ∉ builtAB.recursion_stack ∧
    build_complete_graph envAB builtAB "B" = (builtAB.graph, builtAB) :=
  ⟨by decide, by decide,
   build_state_persists envAB builtAB "B" (by decide) (by decide)⟩

/-- C4 counterexample. The claim says a missing test-mode manifest file is
fatal and aborts the whole run.  In fact `_dfs` catches the exception per
node (main.py 100-101): the build completes normally, returning the
best-effort (empty) graph; the attempted fetch is recorded and no failure
reaches the caller. -/
theorem build_missing_file_cex :
    (build_complete_graph envMissing initBuild "A").1 = [] ∧
    (build_complete_graph envMissing initBuild "A").2
      = { analyzer := { cache := [], fetchCount := 1 }, graph := [],
          visited := ["A"], recursion_stack := [], cycles := [] } := by decide

/-- C4 (amended): when the test-mode manifest file is absent, the
exception raised by `_extract_from_test_file` is caught per node inside
`_dfs`, which marks the node visited, leaves it without edges, restores
the recursion stack and returns normally — the error is swallowed per node
and the build yields a best-effort graph instead of aborting. -/
theorem dfs_missing_file_caught (env : Env) (fuel : Nat) (package : String)
    (path : List String) (st : BuildState)
    (hmode : env.test_repository_mode = true) (hfile : env.testFile = none)
    (h1 : package ∉ st.recursion_stack) (h2 : package ∉ st.visited)
    (hc : lookupA st.analyzer.cache package = none) :
    dfs env (fuel + 1) package path st
      = { st with visited := st.visited ++ [package],
                  analyzer := { st.analyzer with
                    fetchCount := st.analyzer.fetchCount + 1 } } := by
  have hx : extract_dependencies_for_package env st.analyzer package
      = (Except.error "test file not found",
         { st.analyzer with fetchCount := st.analyzer.fetchCount + 1 }) := by
    simp [extract_dependencies_for_package, hc, hmode, hfile]
  exact dfs_expand_error env fuel package path st _ _ h1 h2 hx

/-- C4 witness: in the missing-file environment, one `_dfs` expansion of a
fresh node returns normally with the node visited, no edges, and one
recorded fetch attempt. -/
theorem dfs_missing_file_caught_witness :
    envMissing.test_repository_mode = true ∧ envMissing.testFile = none ∧
    dfs envMissing 3 "A" [] initBuild
      = { initBuild with visited := ["A"],
                         analyzer := { cache := [], fetchCount := 1 } } := by
  refine ⟨rfl, rfl, ?_⟩
  exact dfs_missing_file_caught envMissing 2 "A" [] initBuild rfl rfl
    (by decide) (by decide) rfl

-- Sanity checks on the spec's own scenario (manifest
-- A:B,C / B:C,D / C:A,E / D:E,F / E:G / F:G / G:).  Note the load order:
-- the returned sequence is root-first, with the shared leaf G last.

example :
    (build_complete_graph
      { test_repository_mode := true,
        testFile := some [("A", ["B", "C"]), ("B", ["C", "D"]),
          ("C", ["A", "E"]), ("D", ["E", "F"]), ("E", ["G"]),
          ("F", ["G"]), ("G", [])],
        registry := fun _ => FetchOutcome.fail,
        max_depth := 10 } initBuild "A").1 =
    [("A", ["B", "C"]), ("B", ["C", "D"]), ("C", ["A", "E"]),
     ("E", ["G"]), ("D", ["E", "F"]), ("F", ["G"])] := by decide

example :
    (get_load_order
      { initBuild with graph :=
        [("A", ["B", "C"]), ("B", ["C", "D"]), ("C", ["A", "E"]),
         ("E", ["G"]), ("D", ["E", "F"]), ("F", ["G"])] } "A").1 =
    ["A", "B", "D", "F", "C", "E", "G"] := by decide
